import Mathlib

/-!
# Verification of the bookmark archive insertion engine

A shallow embedding of `process_bookmarks.py` (repository `zhu327/bookmark`).
Python strings are modelled as `List Char` (named `Str` below); a document is
its raw character content, and the line lists produced by Python's
`readlines()` are recovered with `splitKeepNl`.  The three pure cores of the
script are translated directly:

* `parse_markdown_links_from_diff`  (source lines 243-252),
* `parse_categories_from_file`      (source lines 281-299, its per-line body),
* `insert_article_to_category_file` (source lines 301-365, its pure
  read-modify part, with the randomly chosen emoji passed as a parameter).
-/

/-- Python strings are finite sequences of characters. -/
abbrev Str := List Char

/-- Shorthand: the character list of a Lean string literal. -/
def str (s : String) : Str := s.toList

/-- The whitespace characters stripped by Python's `str.strip()` (ASCII part;
the headings and entry labels in play contain no exotic whitespace). -/
def isPySpace (c : Char) : Bool :=
  c = ' ' || c = '\t' || c = '\n' || c = '\r' || c = '\x0b' || c = '\x0c'

/-- Strip trailing whitespace, as the right half of Python `str.strip()`. -/
def pyRstrip (l : Str) : Str :=
  (l.reverse.dropWhile isPySpace).reverse

/-- Python `str.strip()`: drop leading and trailing whitespace. -/
def pyStrip (l : Str) : Str :=
  pyRstrip (l.dropWhile isPySpace)

/-- Python `str.split(maxsplit=1)`: split on the first whitespace run into at
most two parts.  On an already-stripped nonempty string this yields the first
whitespace-free token and, when present, the remainder after the first
whitespace run. -/
def pySplit1 (l : Str) : List Str :=
  let l1 := l.dropWhile isPySpace
  if l1 = [] then []
  else
    let tok := l1.takeWhile (fun c => !(isPySpace c))
    let rest := (l1.dropWhile (fun c => !(isPySpace c))).dropWhile isPySpace
    if rest = [] then [tok] else [tok, rest]

/-- Split a character stream into lines, keeping the terminating newline of
each line, exactly as Python's `readlines()` / iteration over a file does:
`"ab\ncd"` becomes `["ab\n", "cd"]`, and the empty stream has no lines. -/
def splitKeepNl (l : Str) : List Str :=
  List.foldr
    (fun c acc =>
      if c = '\n' then ['\n'] :: acc
      else
        match acc with
        | [] => [[c]]
        | line :: rest => (c :: line) :: rest)
    [] l

/-- Python `str.splitlines()` restricted to `'\n'` terminators (the only ones
that occur in git diff output): the lines without their terminators, with no
empty final piece for a trailing newline. -/
def pySplitlines (l : Str) : List Str :=
  (splitKeepNl l).map (fun line => if line.getLast? = some '\n' then line.dropLast else line)

/-- Source lines 290-296, the per-line body of `parse_categories_from_file`:
after stripping, a line starting with the `## ` or `### ` heading marker is a
category heading; its name is the last of the at-most-two parts obtained by
splitting the marker-stripped text on the first whitespace run. -/
def parseHeaderLine? (line : Str) : Option Str :=
  let stripped := pyStrip line
  if (str "## ").isPrefixOf stripped || (str "### ").isPrefixOf stripped then
    let headerContent := pyStrip (stripped.dropWhile (fun c => c = '#'))
    some ((pySplit1 headerContent).getLastD [])
  else none

/-- Source lines 319-323, the identical per-line heading-name computation
inside `insert_article_to_category_file`'s category lookup. -/
def insertHeaderLine? (line : Str) : Option Str :=
  let stripped := pyStrip line
  if (str "## ").isPrefixOf stripped || (str "### ").isPrefixOf stripped then
    let headerContent := pyStrip (stripped.dropWhile (fun c => c = '#'))
    some ((pySplit1 headerContent).getLastD [])
  else none

/-- Source lines 287-296: the ordered category list of a document's content,
one name per heading line, in document order, without deduplication. -/
def parseCategories (content : Str) : List Str :=
  (splitKeepNl content).filterMap parseHeaderLine?

/-- Source lines 285-286: a missing file parses to the empty category list. -/
def parseCategoriesFile (file : Option Str) : List Str :=
  match file with
  | none => []
  | some content => parseCategories content

/-- First index (from the front) satisfying `p`, as Python's
`for i, line in enumerate(lines): ... break` loops compute it. -/
def findIdxFrom (p : Str → Bool) : List Str → Option Nat
  | [] => none
  | l :: ls => if p l then some 0 else (findIdxFrom p ls).map (· + 1)

/-- Source lines 318-326: index of the first line whose heading name equals
the requested category (stripped-marker, exact string comparison). -/
def findCategoryIndex (lines : List Str) (category : Str) : Option Nat :=
  findIdxFrom (fun l => insertHeaderLine? l == some category) lines

/-- Source line 332: an entry line is one whose stripped text starts with the
entry-title label `**标题:**`. -/
def isArticleLine (l : Str) : Bool :=
  (str "**标题:**").isPrefixOf (pyStrip l)

/-- Source lines 330-334: scan forward from just after the heading, over all
remaining lines of the document, for the first entry-title line. -/
def findFirstArticle (lines : List Str) (h : Nat) : Option Nat :=
  (findIdxFrom isArticleLine (lines.drop (h + 1))).map (· + (h + 1))

/-- Source lines 341-345: the end of the category's section, the first later
line whose raw text starts with `##` (note: `###` also starts with `##`), or
the number of lines when there is none. -/
def endOfSection (lines : List Str) (h : Nat) : Nat :=
  match findIdxFrom (fun l => (str "##").isPrefixOf l) (lines.drop (h + 1)) with
  | some j => h + 1 + j
  | none => lines.length

/-- Python `list.insert(i, x)`: place `x` before position `i` (clamped). -/
def insertAt (l : List Str) (i : Nat) (x : Str) : List Str :=
  l.take i ++ x :: l.drop i

/-- Source line 315: the three-field entry text. -/
def articleText (title url summary : Str) : Str :=
  str "**标题:** " ++ title ++ str "\n\n**链接:** " ++ url ++ str "\n\n**摘要:** " ++ summary

/-- Source lines 351-354: before appending a new category at the end, append
a terminator if the last line lacks `\n`, then a blank line if the (possibly
just extended) last line does not strip to the empty string. -/
def fixTail (lines : List Str) : List Str :=
  let l1 :=
    match lines.getLast? with
    | some last => if last.getLast? = some '\n' then lines else lines ++ [['\n']]
    | none => lines
  match l1.getLast? with
  | some last => if pyStrip last = [] then l1 else l1 ++ [['\n']]
  | none => l1

/-- Source line 355: the fixed decorative marker set for new categories. -/
def emojis : List Str := [str "🧩", str "🔧", str "💡", str "📚", str "🧭", str "✨"]

/-- Source lines 315-359, the pure in-memory rewrite of
`insert_article_to_category_file` on the `readlines()` list: locate the first
heading whose name equals `category`; if found, prepend the entry block
before the first later entry-title line, or, when none exists, place
`"\n" ++ entry ++ "\n"` at the section end; if the category is absent, append
a fresh `## emoji category` section at the document end.  The emoji that
`random.choice` picks is passed in as `emoji`. -/
def insertLines (lines : List Str) (category title url summary emoji : Str) : List Str :=
  let article := articleText title url summary
  match findCategoryIndex lines category with
  | some h =>
    match findFirstArticle lines h with
    | some f => insertAt lines f (article ++ str "\n\n---\n\n")
    | none => insertAt lines (endOfSection lines h) ('\n' :: (article ++ ['\n']))
  | none =>
    fixTail lines ++
      [str "## " ++ emoji ++ ' ' :: (category ++ ['\n']), ['\n'], article ++ ['\n']]

/-- Source line 308: a missing archive file is initialized with a single
top-level title line and a blank line. -/
def initContent : Str := str "# 网站资源分类整理\n\n"

/-- Source lines 305-363 end to end: the full content rewrite of one
insertion call.  `none` stands for a missing archive file. -/
def insertContent (file : Option Str) (category title url summary emoji : Str) : Str :=
  let content := match file with | none => initContent | some c => c
  (insertLines (splitKeepNl content) category title url summary emoji).flatten

/-- The file contents observable while `open(path, "w")` followed by
`writelines(lines)` runs: the truncated empty file after `open`, then each
prefix of the buffer as successive elements are written out. -/
def writeStates (lines : List Str) : List Str :=
  (List.range (lines.length + 1)).map (fun k => (lines.take k).flatten)

/-- Split `l` at the first occurrence of `ch`: the (possibly empty) part
before it and the part after it, or `none` when `ch` does not occur. -/
def takeUntilChar (ch : Char) : Str → Option (Str × Str)
  | [] => none
  | c :: cs =>
    if c = ch then some ([], cs)
    else
      match takeUntilChar ch cs with
      | some (a, r) => some (c :: a, r)
      | none => none

/-- The lazy group `(.+?)\)` of the link pattern: the shortest nonempty text
before a closing parenthesis, as the regex engine matches it (the first
character is consumed unconditionally because the group needs one char). -/
def findUrl : Str → Option (Str × Str)
  | [] => none
  | c :: cs =>
    match takeUntilChar ')' cs with
    | some (a, r) => some (c :: a, r)
    | none => none

/-- Matching of `(.+?)\]\((.+?)\)` after an opening `[`, with the regex
engine's backtracking: the title grows to the next `](` occurrence; if no
closing parenthesis follows a candidate, the next `](` occurrence is tried.
`acc` is the reversed title accumulated so far. -/
def findLinkBody : Str → Str → Option (Str × Str × Str)
  | acc, ']' :: '(' :: rest =>
    if acc.isEmpty then findLinkBody (']' :: acc) ('(' :: rest)
    else
      match findUrl rest with
      | some (url, rest') => some (acc.reverse, url, rest')
      | none => findLinkBody (']' :: acc) ('(' :: rest)
  | acc, c :: cs => findLinkBody (c :: acc) cs
  | _, [] => none

/-- `re.findall` of the link pattern `\[(.+?)\]\((.+?)\)` over `l`, driven by
fuel: a match is attempted at each position in turn, and scanning resumes
after the end of each match.  Every step consumes at least one character, so
fuel equal to the input length never runs out (`findAllLinksFuel_congr`). -/
def findAllLinksFuel : Nat → Str → List (Str × Str)
  | 0, _ => []
  | _ + 1, [] => []
  | fuel + 1, c :: cs =>
    if c = '[' then
      match findLinkBody [] cs with
      | some (t, u, rest) => (t, u) :: findAllLinksFuel fuel rest
      | none => findAllLinksFuel fuel cs
    else findAllLinksFuel fuel cs

/-- `re.findall(r'\[(.+?)\]\((.+?)\)', l)`, source line 244/249. -/
def findAllLinks (l : Str) : List (Str × Str) :=
  findAllLinksFuel l.length l

/-- Source lines 243-252, `parse_markdown_links_from_diff`: over the lines of
the diff text, keep those starting with `+` but not `+++`, drop the marker,
strip, extract every link match in order, and strip each title and url. -/
def parseMarkdownLinksFromDiff (diff : Str) : List (Str × Str) :=
  (pySplitlines diff).foldl
    (fun acc line =>
      if (str "+").isPrefixOf line && !((str "+++").isPrefixOf line) then
        acc ++ (findAllLinks (pyStrip (line.drop 1))).map
          (fun p => (pyStrip p.1, pyStrip p.2))
      else acc)
    []

/-! ## Helper lemmas: first-index searches -/

theorem findIdxFrom_some {p : Str → Bool} :
    ∀ {L : List Str} {n : Nat}, findIdxFrom p L = some n →
      n < L.length ∧ p (L.getD n []) = true ∧ ∀ j, j < n → p (L.getD j []) = false := by
  intro L
  induction L with
  | nil => intro n h; simp [findIdxFrom] at h
  | cons l ls ih =>
    intro n h
    by_cases hp : p l
    · simp [findIdxFrom, hp] at h
      subst h
      exact ⟨by simp, by simpa using hp, by omega⟩
    · simp [findIdxFrom, hp, Option.map_eq_some'] at h
      obtain ⟨m, hm, rfl⟩ := h
      obtain ⟨h1, h2, h3⟩ := ih hm
      refine ⟨by simpa using h1, by simpa using h2, ?_⟩
      intro j hj
      cases j with
      | zero => simpa using hp
      | succ k => simpa using h3 k (by omega)

theorem findIdxFrom_eq_none {p : Str → Bool} :
    ∀ {L : List Str}, findIdxFrom p L = none → ∀ l ∈ L, p l = false := by
  intro L
  induction L with
  | nil => intro _ l hl; simp at hl
  | cons x ls ih =>
    intro h l hl
    by_cases hp : p x
    · simp [findIdxFrom, hp] at h
    · simp [findIdxFrom, hp] at h
      rcases List.mem_cons.mp hl with rfl | hm
      · simpa using hp
      · exact ih h l hm

theorem getD_drop (L : List Str) : ∀ (n j : Nat), (L.drop n).getD j [] = L.getD (n + j) [] := by
  induction L with
  | nil => intro n j; simp
  | cons l ls ih =>
    intro n j
    cases n with
    | zero => simp
    | succ m =>
      have : m + 1 + j = (m + j) + 1 := by omega
      rw [List.drop_succ_cons, ih m j, this, List.getD_cons_succ]

theorem dropLast_drop_comm (L : List Str) : ∀ n : Nat, (L.drop n).dropLast = L.dropLast.drop n := by
  induction L with
  | nil => intro n; simp
  | cons x xs ih =>
    intro n
    cases n with
    | zero => simp
    | succ m =>
      rw [List.drop_succ_cons, ih m]
      cases xs with
      | nil => simp
      | cons y ys => rw [List.dropLast_cons₂, List.drop_succ_cons]

theorem fixTail_eq_append (L : List Str) :
    ∃ ext : List Str, (∀ x ∈ ext, x = ['\n']) ∧ ext.length ≤ 2 ∧ fixTail L = L ++ ext := by
  unfold fixTail
  cases hg : L.getLast? with
  | none =>
    simp only [hg]
    cases hg2 : L.getLast? with
    | none => exact ⟨[], by simp, by simp, by simp⟩
    | some last => simp [hg] at hg2
  | some last =>
    simp only [hg]
    by_cases hnl : last.getLast? = some '\n'
    · simp only [if_pos hnl, hg]
      by_cases hst : pyStrip last = []
      · exact ⟨[], by simp, by simp, by simp [hst]⟩
      · exact ⟨[['\n']], by simp, by simp, by simp [hst]⟩
    · simp only [if_neg hnl]
      have hg2 : (L ++ [['\n']]).getLast? = some ['\n'] := List.getLast?_concat L
      rw [hg2]
      have : pyStrip ['\n'] = [] := by decide
      exact ⟨[['\n']], by simp, by simp, by simp [this]⟩

/-! ## Helper lemmas: line splitting -/

theorem splitKeepNl_cons_nl (l : Str) : splitKeepNl ('\n' :: l) = ['\n'] :: splitKeepNl l := by
  simp [splitKeepNl]

theorem splitKeepNl_cons {c : Char} (hc : c ≠ '\n') (l : Str) :
    splitKeepNl (c :: l) =
      match splitKeepNl l with
      | [] => [[c]]
      | line :: rest => (c :: line) :: rest := by
  simp [splitKeepNl, hc]

theorem splitKeepNl_eq_nil_iff {l : Str} : splitKeepNl l = [] ↔ l = [] := by
  constructor
  · intro h
    cases l with
    | nil => rfl
    | cons c cs =>
      by_cases hc : c = '\n'
      · subst hc; rw [splitKeepNl_cons_nl] at h; simp at h
      · rw [splitKeepNl_cons hc] at h
        cases hs : splitKeepNl cs with
        | nil => rw [hs] at h; simp at h
        | cons hd tl => rw [hs] at h; simp at h
  · intro h; subst h; rfl

theorem flatten_splitKeepNl (l : Str) : (splitKeepNl l).flatten = l := by
  induction l with
  | nil => rfl
  | cons c cs ih =>
    by_cases hc : c = '\n'
    · subst hc; rw [splitKeepNl_cons_nl]; simpa using ih
    · rw [splitKeepNl_cons hc]
      cases hs : splitKeepNl cs with
      | nil =>
        have : cs = [] := splitKeepNl_eq_nil_iff.mp hs
        subst this; simp
      | cons hd tl =>
        rw [hs] at ih
        simpa using ih

theorem splitKeepNl_chunk {a : Str} (ha : ∀ c ∈ a, c ≠ '\n') (r : Str) :
    splitKeepNl (a ++ '\n' :: r) = (a ++ ['\n']) :: splitKeepNl r := by
  induction a with
  | nil => simpa using splitKeepNl_cons_nl r
  | cons c a' ih =>
    have hc : c ≠ '\n' := ha c (by simp)
    have ih' := ih (fun x hx => ha x (by simp [hx]))
    rw [List.cons_append, splitKeepNl_cons hc, ih']
    rfl

theorem splitKeepNl_single {a : Str} (ha : ∀ c ∈ a, c ≠ '\n') (hne : a ≠ []) :
    splitKeepNl a = [a] := by
  induction a with
  | nil => simp at hne
  | cons c a' ih =>
    have hc : c ≠ '\n' := ha c (by simp)
    rw [splitKeepNl_cons hc]
    cases ha' : a' with
    | nil => rfl
    | cons d a'' =>
      have := ih (fun x hx => ha x (by simp [hx])) (by simp [ha'])
      rw [← ha', this]

/-- A "good line": nonempty, with `'\n'` at most as its final character. -/
theorem splitKeepNl_good (l : Str) :
    ∀ x ∈ splitKeepNl l, x ≠ [] ∧ ∀ c ∈ x.dropLast, c ≠ '\n' := by
  induction l with
  | nil => intro x hx; simp [splitKeepNl] at hx
  | cons c cs ih =>
    intro x hx
    by_cases hc : c = '\n'
    · subst hc
      rw [splitKeepNl_cons_nl] at hx
      rcases List.mem_cons.mp hx with rfl | hm
      · exact ⟨by simp, by simp⟩
      · exact ih x hm
    · rw [splitKeepNl_cons hc] at hx
      cases hs : splitKeepNl cs with
      | nil =>
        rw [hs] at hx
        rcases List.mem_singleton.mp hx with rfl
        exact ⟨by simp, by simp⟩
      | cons hd tl =>
        rw [hs] at hx
        rcases List.mem_cons.mp hx with rfl | hm
        · obtain ⟨hne, hgood⟩ := ih hd (by rw [hs]; simp)
          refine ⟨by simp, ?_⟩
          cases hd with
          | nil => exact absurd rfl hne
          | cons d hd' =>
            rw [List.dropLast_cons₂]
            intro ch hch
            rcases List.mem_cons.mp hch with rfl | hm2
            · exact hc
            · exact hgood ch hm2
        · exact ih x (by rw [hs]; simp [hm])

/-- Every line but the last carries its terminating newline. -/
theorem splitKeepNl_terminated (l : Str) :
    ∀ x ∈ (splitKeepNl l).dropLast, x.getLast? = some '\n' := by
  induction l with
  | nil => intro x hx; simp [splitKeepNl] at hx
  | cons c cs ih =>
    intro x hx
    by_cases hc : c = '\n'
    · subst hc
      rw [splitKeepNl_cons_nl] at hx
      cases hs : splitKeepNl cs with
      | nil => rw [hs] at hx; simp at hx
      | cons hd tl =>
        rw [hs, List.dropLast_cons₂] at hx
        rcases List.mem_cons.mp hx with rfl | hm
        · rfl
        · exact ih x (by rw [hs]; exact hm)
    · rw [splitKeepNl_cons hc] at hx
      cases hs : splitKeepNl cs with
      | nil => rw [hs] at hx; simp at hx
      | cons hd tl =>
        rw [hs] at hx
        cases tl with
        | nil => simp at hx
        | cons y tl' =>
          rw [List.dropLast_cons₂] at hx
          rcases List.mem_cons.mp hx with rfl | hm
          · have : hd ∈ (splitKeepNl cs).dropLast := by
              rw [hs, List.dropLast_cons₂]; simp
            have hlast := ih hd this
            have hne : hd ≠ [] := (splitKeepNl_good cs hd (by rw [hs]; simp)).1
            cases hd with
            | nil => exact absurd rfl hne
            | cons d hd' => simpa using hlast
          · exact ih x (by rw [hs, List.dropLast_cons₂]; simp [hm])

/-- Splitting distributes over an append whose left part is a flattened list
of newline-terminated good lines. -/
theorem splitKeepNl_flatten_append {A : List Str}
    (hA : ∀ x ∈ A, (x ≠ [] ∧ ∀ c ∈ x.dropLast, c ≠ '\n') ∧ x.getLast? = some '\n') :
    ∀ b : Str, splitKeepNl (A.flatten ++ b) = A ++ splitKeepNl b := by
  induction A with
  | nil => intro b; simp
  | cons x A' ih =>
    intro b
    obtain ⟨⟨hne, hgood⟩, hlast⟩ := hA x (by simp)
    have hx : x.dropLast ++ ['\n'] = x := List.dropLast_append_getLast? '\n' hlast
    have step : x ++ (A'.flatten ++ b) = x.dropLast ++ '\n' :: (A'.flatten ++ b) := by
      rw [← hx]; simp
    rw [List.flatten_cons, List.append_assoc, step, splitKeepNl_chunk hgood, hx,
      ih (fun y hy => hA y (by simp [hy]))]
    rfl

/-- Re-splitting the flattened form of a proper line list is the identity:
all lines are good, and all but the last end with a newline. -/
theorem splitKeepNl_flatten {L : List Str}
    (h1 : ∀ x ∈ L, x ≠ [] ∧ ∀ c ∈ x.dropLast, c ≠ '\n')
    (h2 : ∀ x ∈ L.dropLast, x.getLast? = some '\n') :
    splitKeepNl L.flatten = L := by
  induction L with
  | nil => rfl
  | cons x rest ih =>
    obtain ⟨hne, hgood⟩ := h1 x (by simp)
    cases hr : rest with
    | nil =>
      subst hr
      simp only [List.flatten_cons, List.flatten_nil, List.append_nil]
      cases hlast : x.getLast? with
      | none => simp [List.getLast?_eq_none_iff] at hlast; exact absurd hlast hne
      | some ch =>
        by_cases hch : ch = '\n'
        · subst hch
          have hx : x.dropLast ++ ['\n'] = x := List.dropLast_append_getLast? '\n' hlast
          calc splitKeepNl x = splitKeepNl (x.dropLast ++ '\n' :: []) := by rw [← hx]; simp
            _ = [x.dropLast ++ ['\n']] := by rw [splitKeepNl_chunk hgood]; rfl
            _ = [x] := by rw [hx]
        · have hnl : ∀ c ∈ x, c ≠ '\n' := by
            intro c hc
            have hx : x.dropLast ++ [ch] = x := List.dropLast_append_getLast? ch hlast
            rw [← hx] at hc
            rcases List.mem_append.mp hc with hm | hm
            · exact hgood c hm
            · rcases List.mem_singleton.mp hm with rfl; exact hch
          exact splitKeepNl_single hnl hne
    | cons y rest' =>
      subst hr
      have hlast : x.getLast? = some '\n' := by
        apply h2; rw [List.dropLast_cons₂]; simp
      have hx : x.dropLast ++ ['\n'] = x := List.dropLast_append_getLast? '\n' hlast
      have step : x ++ (y :: rest').flatten = x.dropLast ++ '\n' :: (y :: rest').flatten := by
        rw [← hx]; simp
      rw [List.flatten_cons, step, splitKeepNl_chunk hgood, hx]
      congr 1
      exact ih (fun z hz => h1 z (by simp [hz]))
        (fun z hz => h2 z (by rw [List.dropLast_cons₂]; simp [hz]))

/-! ## Helper lemmas: Python strip -/

theorem pyRstrip_cons {c : Char} (hc : isPySpace c = false) (r : Str) :
    pyRstrip (c :: r) = c :: pyRstrip r := by
  unfold pyRstrip
  rw [List.reverse_cons, List.dropWhile_append]
  by_cases he : (r.reverse.dropWhile isPySpace).isEmpty
  · simp only [he, if_pos rfl]
    rw [List.isEmpty_iff] at he
    simp [he, List.dropWhile, hc]
  · simp only [he]
    simp only [Bool.false_eq_true, if_false, List.reverse_append]
    simp
theorem pyStrip_cons_of_not_space {c : Char} (hc : isPySpace c = false) (r : Str) :
    pyStrip (c :: r) = c :: pyRstrip r := by
  unfold pyStrip
  rw [List.dropWhile_cons, hc]
  simp only [Bool.false_eq_true, if_false]
  exact pyRstrip_cons hc r

theorem pyRstrip_append_nl (l : Str) : pyRstrip (l ++ ['\n']) = pyRstrip l := by
  unfold pyRstrip
  rw [List.reverse_append]
  simp [List.dropWhile, isPySpace]

theorem pyStrip_append_nl (l : Str) : pyStrip (l ++ ['\n']) = pyStrip l := by
  unfold pyStrip
  by_cases he : (l.dropWhile isPySpace).isEmpty
  · rw [List.isEmpty_iff] at he
    rw [List.dropWhile_append]
    simp only [he, List.isEmpty_nil, if_pos rfl]
    simp [he, List.dropWhile, isPySpace, pyRstrip]
  · rw [List.dropWhile_append]
    simp only [he, Bool.false_eq_true, if_false]
    exact pyRstrip_append_nl _

theorem pyRstrip_append_right {b : Str} (h : pyRstrip b ≠ []) (a : Str) :
    pyRstrip (a ++ b) = a ++ pyRstrip b := by
  unfold pyRstrip at h ⊢
  rw [List.reverse_append, List.dropWhile_append]
  have hne : (b.reverse.dropWhile isPySpace).isEmpty = false := by
    rw [List.isEmpty_eq_false_iff_exists_mem]
    cases hb : b.reverse.dropWhile isPySpace with
    | nil => rw [hb] at h; simp at h
    | cons x xs => exact ⟨x, by simp⟩
  rw [hne]
  simp

theorem pyRstrip_append_left {b : Str} (h : pyRstrip b = []) (a : Str) :
    pyRstrip (a ++ b) = pyRstrip a := by
  unfold pyRstrip at h ⊢
  rw [List.reverse_append, List.dropWhile_append]
  have hnil : b.reverse.dropWhile isPySpace = [] := by
    have := congrArg List.reverse h
    simpa using this
  rw [hnil]
  simp

theorem parseHeaderLine?_cons_none {c : Char} (h1 : isPySpace c = false) (h2 : c ≠ '#')
    (r : Str) : parseHeaderLine? (c :: r) = none := by
  unfold parseHeaderLine?
  rw [pyStrip_cons_of_not_space h1]
  have hh : ('#' = c) = False := by simp [Ne.symm h2]
  have e1 : ((str "## ").isPrefixOf (c :: pyRstrip r)) = false := by
    have : str "## " = '#' :: str "# " := rfl
    rw [this]
    simp [List.isPrefixOf, hh]
  have e2 : ((str "### ").isPrefixOf (c :: pyRstrip r)) = false := by
    have : str "### " = '#' :: str "## " := rfl
    rw [this]
    simp [List.isPrefixOf, hh]
  simp [e1, e2]

theorem parseHeaderLine?_append_nl (l : Str) :
    parseHeaderLine? (l ++ ['\n']) = parseHeaderLine? l := by
  unfold parseHeaderLine?
  rw [pyStrip_append_nl]

theorem isArticleLine_label (X : Str) : isArticleLine (str "**标题:** " ++ X) = true := by
  rw [isArticleLine]
  have h1 : str "**标题:** " ++ X = '*' :: (str "*标题:** " ++ X) := rfl
  rw [h1, pyStrip_cons_of_not_space (by decide)]
  rw [List.isPrefixOf_iff_prefix]
  by_cases hX : pyRstrip X = []
  · rw [pyRstrip_append_left hX]
    decide
  · rw [pyRstrip_append_right hX]
    have h2 : '*' :: (str "*标题:** " ++ pyRstrip X) = str "**标题:** " ++ pyRstrip X := rfl
    rw [h2]
    exact List.IsPrefix.trans (by decide) (List.prefix_append _ _)

/-! ## Helper lemmas: the link scanner -/

theorem takeUntilChar_length {ch : Char} :
    ∀ {l a r : Str}, takeUntilChar ch l = some (a, r) → r.length < l.length := by
  intro l
  induction l with
  | nil => intro a r h; simp [takeUntilChar] at h
  | cons c cs ih =>
    intro a r h
    rw [takeUntilChar] at h
    by_cases hc : c = ch
    · rw [if_pos hc] at h
      simp only [Option.some.injEq, Prod.mk.injEq] at h
      obtain ⟨-, rfl⟩ := h
      simp
    · rw [if_neg hc] at h
      cases ht : takeUntilChar ch cs with
      | none => rw [ht] at h; simp at h
      | some p =>
        obtain ⟨a2, r2⟩ := p
        rw [ht] at h
        simp only [Option.some.injEq, Prod.mk.injEq] at h
        obtain ⟨-, rfl⟩ := h
        exact Nat.lt_succ_of_lt (ih ht)

theorem findUrl_length : ∀ {l u r : Str}, findUrl l = some (u, r) → r.length < l.length := by
  intro l u r h
  cases l with
  | nil => simp [findUrl] at h
  | cons c cs =>
    rw [findUrl] at h
    cases ht : takeUntilChar ')' cs with
    | none => rw [ht] at h; simp at h
    | some p =>
      obtain ⟨a2, r2⟩ := p
      rw [ht] at h
      simp only [Option.some.injEq, Prod.mk.injEq] at h
      obtain ⟨-, rfl⟩ := h
      exact Nat.lt_succ_of_lt (takeUntilChar_length ht)

theorem findLinkBody_length (acc l : Str) :
    ∀ t u r, findLinkBody acc l = some (t, u, r) → r.length < l.length := by
  induction acc, l using findLinkBody.induct with
  | case1 acc rest hemp ih =>
    intro t u r h
    rw [findLinkBody, if_pos hemp] at h
    have := ih t u r h
    simp only [List.length_cons] at this ⊢
    omega
  | case2 acc rest hemp a r2 hurl =>
    intro t u r h
    rw [findLinkBody, if_neg hemp, hurl] at h
    simp only [Option.some.injEq, Prod.mk.injEq] at h
    obtain ⟨-, -, rfl⟩ := h
    have := findUrl_length hurl
    simp only [List.length_cons]
    omega
  | case3 acc rest hemp hurl ih =>
    intro t u r h
    rw [findLinkBody, if_neg hemp, hurl] at h
    have := ih t u r h
    simp only [List.length_cons] at this ⊢
    omega
  | case4 acc c cs hne ih =>
    intro t u r h
    have heq : findLinkBody acc (c :: cs) = findLinkBody (c :: acc) cs := by
      rw [findLinkBody.eq_def]
      split
      · exfalso
        rename_i rest heq2
        injection heq2 with e1 e2
        exact hne rest e1 e2
      · rename_i c2 cs2 hno heq2
        injection heq2 with e1 e2
        subst e1; subst e2
        rfl
      · rename_i heq2
        exact absurd heq2 (by simp)
    rw [heq] at h
    exact Nat.lt_succ_of_lt (ih t u r h)
  | case5 x =>
    intro t u r h
    simp [findLinkBody] at h

theorem findAllLinksFuel_congr :
    ∀ (f1 f2 : Nat) (l : Str), l.length ≤ f1 → l.length ≤ f2 →
      findAllLinksFuel f1 l = findAllLinksFuel f2 l := by
  intro f1
  induction f1 with
  | zero =>
    intro f2 l h1 h2
    have hl : l = [] := by
      cases l with
      | nil => rfl
      | cons c cs => simp at h1
    subst hl
    cases f2 <;> rfl
  | succ f ih =>
    intro f2 l h1 h2
    cases l with
    | nil => cases f2 <;> rfl
    | cons c cs =>
      cases f2 with
      | zero => simp at h2
      | succ g =>
        simp only [List.length_cons] at h1 h2
        rw [findAllLinksFuel, findAllLinksFuel]
        by_cases hc : c = '['
        · rw [if_pos hc, if_pos hc]
          cases hb : findLinkBody [] cs with
          | some p =>
            obtain ⟨t, u, rest⟩ := p
            have hlen := findLinkBody_length [] cs t u rest hb
            show (t, u) :: findAllLinksFuel f rest = (t, u) :: findAllLinksFuel g rest
            congr 1
            exact ih g rest (by omega) (by omega)
          | none =>
            show findAllLinksFuel f cs = findAllLinksFuel g cs
            exact ih g cs (by omega) (by omega)
        · rw [if_neg hc, if_neg hc]
          exact ih g cs (by omega) (by omega)

theorem foldl_filter_append (g : Str → List (Str × Str)) (cond : Str → Bool) :
    ∀ (L : List Str) (init : List (Str × Str)),
      L.foldl (fun acc line => if cond line then acc ++ g line else acc) init
        = init ++ (L.map (fun line => if cond line then g line else [])).flatten := by
  intro L
  induction L with
  | nil => intro init; simp
  | cons x L' ih =>
    intro init
    by_cases hx : cond x
    · simp only [List.foldl_cons, if_pos hx, List.map_cons, List.flatten_cons]
      rw [ih]
      simp [List.append_assoc]
    · simp only [List.foldl_cons, if_neg hx, List.map_cons, List.flatten_cons]
      rw [ih]
      simp

/-! ## Claims -/

/-- C8: for every diff text, the link extractor returns exactly the
`(title, url)` pairs matching the markdown-link pattern found on lines marked
as additions (prefixed `+`), excluding the `+++` diff-header line, ordered by
line order and left-to-right within each line; non-addition lines contribute
nothing, and empty input yields the empty list.  The third conjunct is the
spec's Scenario D: three added lines each holding one link plus two removed
lines holding links yield exactly the three added links in order. -/
theorem C8_diff_link_extraction (d : Str) :
    parseMarkdownLinksFromDiff d =
      ((pySplitlines d).map (fun line =>
        if (str "+").isPrefixOf line && !((str "+++").isPrefixOf line) then
          (findAllLinks (pyStrip (line.drop 1))).map (fun p => (pyStrip p.1, pyStrip p.2))
        else [])).flatten
    ∧ parseMarkdownLinksFromDiff [] = []
    ∧ parseMarkdownLinksFromDiff
        (str "+++ b/README.md\n+Check [A](http://a) now\n-[X](http://x)\n+[B](http://b)\n-[Y](http://y)\n+ [C](http://c)\n")
      = [(str "A", str "http://a"), (str "B", str "http://b"), (str "C", str "http://c")] := by
  refine ⟨?_, rfl, by decide⟩
  unfold parseMarkdownLinksFromDiff
  rw [foldl_filter_append
    (fun line => (findAllLinks (pyStrip (line.drop 1))).map (fun p => (pyStrip p.1, pyStrip p.2)))
    (fun line => (str "+").isPrefixOf line && !((str "+++").isPrefixOf line))]
  simp

theorem getD_mem {L : List Str} {n : Nat} (h : n < L.length) : L.getD n [] ∈ L := by
  rw [List.getD_eq_getElem L [] h]
  exact List.getElem_mem h

theorem insertLines_found_entry {L : List Str} {cat : Str} {h f : Nat}
    (hcat : findCategoryIndex L cat = some h) (hart : findFirstArticle L h = some f)
    (t u s e : Str) :
    insertLines L cat t u s e = insertAt L f (articleText t u s ++ str "\n\n---\n\n") := by
  unfold insertLines
  rw [hcat]
  dsimp only
  rw [hart]

theorem insertLines_found_empty {L : List Str} {cat : Str} {h : Nat}
    (hcat : findCategoryIndex L cat = some h) (hart : findFirstArticle L h = none)
    (t u s e : Str) :
    insertLines L cat t u s e =
      insertAt L (endOfSection L h) ('\n' :: (articleText t u s ++ ['\n'])) := by
  unfold insertLines
  rw [hcat]
  dsimp only
  rw [hart]

theorem insertLines_absent {L : List Str} {cat : Str}
    (hcat : findCategoryIndex L cat = none) (t u s e : Str) :
    insertLines L cat t u s e =
      fixTail L ++ [str "## " ++ e ++ ' ' :: (cat ++ ['\n']), ['\n'], articleText t u s ++ ['\n']] := by
  unfold insertLines
  rw [hcat]

theorem findFirstArticle_spec {L : List Str} {h f : Nat}
    (hart : findFirstArticle L h = some f) :
    h < f ∧ f < L.length ∧ isArticleLine (L.getD f []) = true ∧
      ∀ j, h < j → j < f → isArticleLine (L.getD j []) = false := by
  unfold findFirstArticle at hart
  rw [Option.map_eq_some'] at hart
  obtain ⟨j, hj, rfl⟩ := hart
  obtain ⟨h1, h2, h3⟩ := findIdxFrom_some hj
  rw [List.length_drop] at h1
  refine ⟨by omega, by omega, ?_, ?_⟩
  · have he : h + 1 + j = j + (h + 1) := by omega
    rw [getD_drop, he] at h2
    exact h2
  · intro i hi1 hi2
    have he : i = (h + 1) + (i - (h + 1)) := by omega
    rw [he, ← getD_drop]
    exact h3 (i - (h + 1)) (by omega)

theorem endOfSection_spec (L : List Str) (h : Nat) :
    endOfSection L h ≤ L.length ∧
      (∀ j, h < j → j < endOfSection L h →
        ((str "##").isPrefixOf (L.getD j [])) = false) ∧
      (endOfSection L h < L.length →
        ((str "##").isPrefixOf (L.getD (endOfSection L h) [])) = true) := by
  unfold endOfSection
  cases hf : findIdxFrom (fun l => (str "##").isPrefixOf l) (L.drop (h + 1)) with
  | some j =>
    dsimp only
    obtain ⟨h1, h2, h3⟩ := findIdxFrom_some hf
    rw [List.length_drop] at h1
    refine ⟨by omega, ?_, ?_⟩
    · intro i hi1 hi2
      have he : i = (h + 1) + (i - (h + 1)) := by omega
      rw [he, ← getD_drop]
      exact h3 (i - (h + 1)) (by omega)
    · intro _
      rw [getD_drop] at h2
      exact h2
  | none =>
    dsimp only
    refine ⟨le_refl _, ?_, by omega⟩
    intro i hi1 hi2
    have hlen : i - (h + 1) < (L.drop (h + 1)).length := by
      rw [List.length_drop]; omega
    have hmem := getD_mem hlen
    have := findIdxFrom_eq_none hf _ hmem
    have he : i = (h + 1) + (i - (h + 1)) := by omega
    rw [he, ← getD_drop]
    exact this

theorem isArticleLine_block (t u s tail : Str) :
    isArticleLine (articleText t u s ++ tail) = true := by
  have he : articleText t u s ++ tail
      = str "**标题:** " ++ (t ++ (str "\n\n**链接:** " ++ (u ++ (str "\n\n**摘要:** " ++ (s ++ tail))))) := by
    simp [articleText, List.append_assoc]
  rw [he, isArticleLine_label]

/-- C1: when the document has a heading (at either recognized depth) whose
computed name equals the category, and an entry-title line occurs after that
heading, the insertion places the block `entry ++ "\n\n---\n\n"` immediately
before the first such entry line: the line at the code's chosen index `f` is
the first entry line after the heading `h`, the rewritten document is the
original with exactly that block inserted at `f`, and the number of
entry-title lines grows by one (the new entry sitting first). -/
theorem C1_prepend_into_nonempty_category
    (L : List Str) (cat t u s e : Str) (h f : Nat)
    (hcat : findCategoryIndex L cat = some h)
    (hart : findFirstArticle L h = some f) :
    insertLines L cat t u s e =
      L.take f ++ (articleText t u s ++ str "\n\n---\n\n") :: L.drop f
    ∧ h < f ∧ f < L.length
    ∧ isArticleLine (L.getD f []) = true
    ∧ (∀ j, h < j → j < f → isArticleLine (L.getD j []) = false)
    ∧ (insertLines L cat t u s e).countP isArticleLine
        = L.countP isArticleLine + 1 := by
  obtain ⟨hhf, hfl, hfa, hmin⟩ := findFirstArticle_spec hart
  have heq := insertLines_found_entry hcat hart t u s e
  refine ⟨heq, hhf, hfl, hfa, hmin, ?_⟩
  rw [heq]
  unfold insertAt
  rw [List.countP_append, List.countP_cons, isArticleLine_block]
  simp only [if_pos rfl, if_true]
  have hsplit : L.countP isArticleLine
      = (L.take f).countP isArticleLine + (L.drop f).countP isArticleLine := by
    conv_lhs => rw [← List.take_append_drop f L]
    rw [List.countP_append]
  omega

/-- Witness for C1 at a concrete document: category `Tech` with one existing
entry; the new block lands right before the old first entry. -/
theorem C1_witness :
    insertLines [str "## 🌟 Tech\n", str "\n", str "**标题:** Old\n"]
        (str "Tech") (str "T") (str "U") (str "S") (str "🧩")
      = [str "## 🌟 Tech\n", str "\n",
          articleText (str "T") (str "U") (str "S") ++ str "\n\n---\n\n",
          str "**标题:** Old\n"] :=
  (C1_prepend_into_nonempty_category
    [str "## 🌟 Tech\n", str "\n", str "**标题:** Old\n"]
    (str "Tech") (str "T") (str "U") (str "S") (str "🧩") 0 2
    (by decide) (by decide)).1

/-- C2 (code bug evidence): the source's "has entries" scan (lines 330-334)
is **not** bounded by the next heading.  In the document
`### A / ### B / **标题:** old`, category `A` has no entries of its own, yet
the scan runs past the heading `### B` and prepends the new block directly
before the entry that belongs to category `B` (index 2), instead of treating
`A` as empty and inserting at `A`'s section end (index 1) as the claim
requires. -/
theorem C2_unbounded_entry_scan_crosses_heading :
    insertLines [str "### A\n", str "### B\n", str "**标题:** old\n"]
        (str "A") (str "T") (str "U") (str "S") (str "🧩")
      = [str "### A\n", str "### B\n",
          articleText (str "T") (str "U") (str "S") ++ str "\n\n---\n\n",
          str "**标题:** old\n"]
    ∧ findFirstArticle [str "### A\n", str "### B\n", str "**标题:** old\n"] 0 = some 2 := by
  constructor <;> decide

/-- C3 counterexample: with document `### A / ### B` and category `A` (which
has zero entries), the claim places the block at the end of the document
(index 2), because no heading at the major depth `## ` follows; but the code's
boundary test `line.startswith("##")` is also passed by the minor-depth line
`### B`, so the block actually lands at index 1, before `### B`. -/
theorem C3_counterexample_minor_heading_stops_scan :
    insertLines [str "### A\n", str "### B\n"]
        (str "A") (str "T") (str "U") (str "S") (str "🧩")
      = [str "### A\n",
          '\n' :: (articleText (str "T") (str "U") (str "S") ++ ['\n']),
          str "### B\n"]
    ∧ insertLines [str "### A\n", str "### B\n"]
        (str "A") (str "T") (str "U") (str "S") (str "🧩")
      ≠ [str "### A\n", str "### B\n",
          '\n' :: (articleText (str "T") (str "U") (str "S") ++ ['\n'])] := by
  constructor <;> decide

/-- C3 as amended: when the matched category's heading is followed by no
entry-title line anywhere in the document, the block
`"\n" ++ entry ++ "\n"` is inserted at the index of the next line whose raw
text starts with `##` — a test that minor-depth `###` lines also pass — or at
the end of the document when no such line exists. -/
theorem C3_empty_category_section_end
    (L : List Str) (cat t u s e : Str) (h : Nat)
    (hcat : findCategoryIndex L cat = some h)
    (hart : findFirstArticle L h = none) :
    insertLines L cat t u s e =
      L.take (endOfSection L h) ++
        ('\n' :: (articleText t u s ++ ['\n'])) :: L.drop (endOfSection L h)
    ∧ endOfSection L h ≤ L.length
    ∧ (∀ j, h < j → j < endOfSection L h →
        ((str "##").isPrefixOf (L.getD j [])) = false)
    ∧ (endOfSection L h < L.length →
        ((str "##").isPrefixOf (L.getD (endOfSection L h) [])) = true) := by
  obtain ⟨h1, h2, h3⟩ := endOfSection_spec L h
  exact ⟨insertLines_found_empty hcat hart t u s e, h1, h2, h3⟩

/-- Witness for the amended C3 at a concrete document: an empty category `A`
followed by `### B`; the block is inserted at index 1, the scan boundary. -/
theorem C3_witness :
    insertLines [str "### A\n", str "### B\n"]
        (str "A") (str "T2") (str "U2") (str "S2") (str "✨")
      = [str "### A\n"] ++
          ('\n' :: (articleText (str "T2") (str "U2") (str "S2") ++ ['\n'])) :: [str "### B\n"] :=
  (C3_empty_category_section_end [str "### A\n", str "### B\n"]
    (str "A") (str "T2") (str "U2") (str "S2") (str "✨") 0
    (by decide) (by decide)).1

/-- C4: for every document and every insertion call — existing category with
entries, existing empty category, or absent category — the rewritten line
list is the original with one contiguous region inserted at a single
position: every original line appears verbatim, in order, outside the new
region. -/
theorem C4_frame_preservation (L : List Str) (cat t u s e : Str) :
    ∃ (i : Nat) (region : List Str), i ≤ L.length ∧
      insertLines L cat t u s e = L.take i ++ region ++ L.drop i := by
  cases hcat : findCategoryIndex L cat with
  | some h =>
    cases hart : findFirstArticle L h with
    | some f =>
      obtain ⟨-, hfl, -, -⟩ := findFirstArticle_spec hart
      refine ⟨f, [articleText t u s ++ str "\n\n---\n\n"], by omega, ?_⟩
      rw [insertLines_found_entry hcat hart t u s e]
      simp [insertAt]
    | none =>
      obtain ⟨hle, -, -⟩ := endOfSection_spec L h
      refine ⟨endOfSection L h, ['\n' :: (articleText t u s ++ ['\n'])], hle, ?_⟩
      rw [insertLines_found_empty hcat hart t u s e]
      simp [insertAt]
  | none =>
    obtain ⟨ext, -, -, hext⟩ := fixTail_eq_append L
    refine ⟨L.length, ext ++ [str "## " ++ e ++ ' ' :: (cat ++ ['\n']), ['\n'],
      articleText t u s ++ ['\n']], le_refl _, ?_⟩
    rw [insertLines_absent hcat, hext]
    simp [List.append_assoc]

/-- C5 counterexample: inserting into a missing archive creates the file with
the top-level title and a blank line, then appends the new category section —
but its heading line is `## 🧩 Tech`, at the **major** depth `## `, not at the
minor depth `### ` that the claim asserts. -/
theorem C5_counterexample_major_heading :
    insertContent none (str "Tech") (str "T") (str "U") (str "S") (str "🧩")
      = str "# 网站资源分类整理\n\n## 🧩 Tech\n\n**标题:** T\n\n**链接:** U\n\n**摘要:** S\n"
    ∧ ((str "### ").isPrefixOf (str "## 🧩 Tech\n")) = false
    ∧ ((str "## ").isPrefixOf (str "## 🧩 Tech\n")) = true := by
  refine ⟨by decide, by decide, by decide⟩

/-- C5 as amended: when the category matches no heading, the insertion
appends at the document end — after at most two `"\n"` lines that ensure a
trailing terminator and blank-line separation — a **major-tier** `## ` heading
line made of the marker token (drawn from the fixed emoji set) and the
category name, then a blank line, then the entry block with a trailing
newline and no separator; and a missing file is first initialized with a
single top-level title line and a blank line. -/
theorem C5_new_category_appended
    (L : List Str) (cat t u s emoji : Str)
    (hcat : findCategoryIndex L cat = none) (_hemoji : emoji ∈ emojis) :
    (∃ ext : List Str, (∀ x ∈ ext, x = ['\n']) ∧ ext.length ≤ 2 ∧
      insertLines L cat t u s emoji =
        L ++ ext ++ [str "## " ++ emoji ++ ' ' :: (cat ++ ['\n']), ['\n'],
          articleText t u s ++ ['\n']])
    ∧ splitKeepNl initContent = [str "# 网站资源分类整理\n", str "\n"]
    ∧ insertContent none cat t u s emoji =
        (insertLines (splitKeepNl initContent) cat t u s emoji).flatten := by
  refine ⟨?_, by decide, rfl⟩
  obtain ⟨ext, hall, hlen, hext⟩ := fixTail_eq_append L
  refine ⟨ext, hall, hlen, ?_⟩
  rw [insertLines_absent hcat, hext]

/-- Witness for the amended C5: inserting `Tech` into the two-line initialized
document appends the major-tier heading section with no extra separator
lines. -/
theorem C5_witness :
    ∃ ext : List Str, (∀ x ∈ ext, x = ['\n']) ∧ ext.length ≤ 2 ∧
      insertLines [str "# 网站资源分类整理\n", str "\n"]
          (str "Tech") (str "T") (str "U") (str "S") (str "🧩") =
        [str "# 网站资源分类整理\n", str "\n"] ++ ext ++
          [str "## " ++ str "🧩" ++ ' ' :: (str "Tech" ++ ['\n']), ['\n'],
            articleText (str "T") (str "U") (str "S") ++ ['\n']] :=
  (C5_new_category_appended [str "# 网站资源分类整理\n", str "\n"]
    (str "Tech") (str "T") (str "U") (str "S") (str "🧩")
    (by decide) (by decide)).1

/-- C10 counterexample: the frozen claim fails when the first of two
duplicate headings owns an empty section.  In `## A / ## A / **标题:** x`
the lookup does pick the first `A` heading (index 0), but the unbounded
entry scan finds the first entry line at index 2 — inside the *second*
`A` section — and inserts the block there: the later duplicate section is
changed (it is not the unchanged suffix `L.drop 1` the claim requires). -/
theorem C10_counterexample_empty_first_section :
    findCategoryIndex [str "## A\n", str "## A\n", str "**标题:** x\n"] (str "A") = some 0
    ∧ insertLines [str "## A\n", str "## A\n", str "**标题:** x\n"]
        (str "A") (str "T") (str "U") (str "S") (str "🧩")
      = [str "## A\n", str "## A\n",
          articleText (str "T") (str "U") (str "S") ++ str "\n\n---\n\n",
          str "**标题:** x\n"]
    ∧ (insertLines [str "## A\n", str "## A\n", str "**标题:** x\n"]
        (str "A") (str "T") (str "U") (str "S") (str "🧩")).drop 2
      ≠ [str "## A\n", str "## A\n", str "**标题:** x\n"].drop 1 := by
  refine ⟨by decide, by decide, by decide⟩

/-- C10 as amended: when several headings share the requested name, the code
targets the first one in document order — the heading index it selects is the
least matching index — and, provided the first entry-title line after that
first heading occurs no later than the duplicate heading (in particular
whenever the first matching section itself has entries), the block is
inserted within the first matching section and every line from the duplicate
heading onward survives as an unchanged contiguous suffix.  (Without that
proviso the unbounded entry scan can insert inside a later duplicate
section, as the counterexample shows.) -/
theorem C10_first_duplicate_heading_targeted
    (L : List Str) (cat t u s e : Str) (h1 h2 f : Nat)
    (hcat : findCategoryIndex L cat = some h1)
    (hdup : insertHeaderLine? (L.getD h2 []) = some cat)
    (hne : h1 ≠ h2)
    (hart : findFirstArticle L h1 = some f)
    (hfh2 : f ≤ h2) :
    h1 < h2
    ∧ insertLines L cat t u s e =
        L.take f ++ (articleText t u s ++ str "\n\n---\n\n") :: L.drop f
    ∧ (insertLines L cat t u s e).drop (h2 + 1) = L.drop h2 := by
  obtain ⟨hlt, hp, hminc⟩ := findIdxFrom_some hcat
  have hh12 : h1 < h2 := by
    rcases Nat.lt_or_ge h1 h2 with hlt2 | hge
    · exact hlt2
    · have hne2 : h2 < h1 := by omega
      have := hminc h2 hne2
      rw [hdup] at this
      simp at this
  have heq := insertLines_found_entry hcat hart t u s e
  refine ⟨hh12, heq, ?_⟩
  rw [heq]
  obtain ⟨-, hfl, -, -⟩ := findFirstArticle_spec hart
  unfold insertAt
  have hlen : (L.take f).length = f := List.length_take_of_le (by omega)
  rw [List.drop_append_eq_append_drop]
  have hz : (L.take f).drop (h2 + 1) = [] := by
    apply List.drop_eq_nil_of_le
    omega
  rw [hz, hlen]
  have he2 : h2 + 1 - f = (h2 - f) + 1 := by omega
  rw [he2, List.nil_append, List.drop_succ_cons]
  rw [List.drop_drop]
  congr 1
  omega

/-- Witness for C10: two `Tech` headings; the entry goes under the first,
and the second `Tech` section (from index 2 on) is untouched. -/
theorem C10_witness :
    insertLines [str "## 🌟 Tech\n", str "**标题:** E1\n", str "## 💡 Tech\n", str "**标题:** E2\n"]
        (str "Tech") (str "T") (str "U") (str "S") (str "🧩") =
      [str "## 🌟 Tech\n"] ++ (articleText (str "T") (str "U") (str "S") ++ str "\n\n---\n\n")
        :: [str "**标题:** E1\n", str "## 💡 Tech\n", str "**标题:** E2\n"] :=
  (C10_first_duplicate_heading_targeted
    [str "## 🌟 Tech\n", str "**标题:** E1\n", str "## 💡 Tech\n", str "**标题:** E2\n"]
    (str "Tech") (str "T") (str "U") (str "S") (str "🧩") 0 2 1
    (by decide) (by decide) (by decide) (by decide) (by decide)).2.1

/-- C6 (code bug evidence): the write path (source lines 361-363) opens the
archive with mode `w`, truncating it in place, and then writes the buffer.
`writeStates` lists the file contents observable during that sequence: the
truncated empty file, then each prefix of the buffer.  An I/O failure before
completion leaves such an intermediate state — here both the empty state and
the one-element state differ from the original document and from the fully
rewritten one, so the write is not "fully replaced or left untouched". -/
theorem C6_truncating_write_partial_state :
    ([] : Str) ∈ writeStates (insertLines (splitKeepNl (str "## 🌟 Tech\n\n**标题:** Old\n"))
        (str "Tech") (str "T") (str "U") (str "S") (str "🧩"))
    ∧ ((insertLines (splitKeepNl (str "## 🌟 Tech\n\n**标题:** Old\n"))
        (str "Tech") (str "T") (str "U") (str "S") (str "🧩")).take 1).flatten
      ∈ writeStates (insertLines (splitKeepNl (str "## 🌟 Tech\n\n**标题:** Old\n"))
        (str "Tech") (str "T") (str "U") (str "S") (str "🧩"))
    ∧ ([] : Str) ≠ str "## 🌟 Tech\n\n**标题:** Old\n"
    ∧ ((insertLines (splitKeepNl (str "## 🌟 Tech\n\n**标题:** Old\n"))
        (str "Tech") (str "T") (str "U") (str "S") (str "🧩")).take 1).flatten
      ≠ str "## 🌟 Tech\n\n**标题:** Old\n"
    ∧ ((insertLines (splitKeepNl (str "## 🌟 Tech\n\n**标题:** Old\n"))
        (str "Tech") (str "T") (str "U") (str "S") (str "🧩")).take 1).flatten
      ≠ (insertLines (splitKeepNl (str "## 🌟 Tech\n\n**标题:** Old\n"))
        (str "Tech") (str "T") (str "U") (str "S") (str "🧩")).flatten := by
  refine ⟨by decide, by decide, by decide, by decide, by decide⟩

/-- C7: the category parser and the insertion lookup run the identical
marker-strip / first-whitespace-split / last-part name computation; the
lookup selects exactly the first line whose computed name equals the
requested category under exact, case-sensitive equality; and the heading
`## 🌟 AI Tools` (leading decorative symbol) matches a lookup for
`AI Tools` — but not for `ai tools`. -/
theorem C7_header_name_matching
    (L : List Str) (cat : Str) (h : Nat)
    (hfind : findCategoryIndex L cat = some h) :
    (∀ l, parseHeaderLine? l = insertHeaderLine? l)
    ∧ h < L.length
    ∧ insertHeaderLine? (L.getD h []) = some cat
    ∧ (∀ j, j < h → insertHeaderLine? (L.getD j []) ≠ some cat)
    ∧ parseHeaderLine? (str "## 🌟 AI Tools\n") = some (str "AI Tools")
    ∧ insertHeaderLine? (str "## 🌟 AI Tools\n") ≠ some (str "ai tools") := by
  obtain ⟨h1, h2, h3⟩ := findIdxFrom_some hfind
  refine ⟨fun l => rfl, h1, ?_, ?_, by decide, by decide⟩
  · rwa [beq_iff_eq] at h2
  · intro j hj hcontra
    have := h3 j hj
    rw [hcontra] at this
    simp at this

/-- Witness for C7: in a two-line document the lookup for `AI Tools` lands on
the decorated heading at index 1. -/
theorem C7_witness :
    insertHeaderLine? ([str "Text line\n", str "## 🌟 AI Tools\n"].getD 1 []) = some (str "AI Tools") :=
  (C7_header_name_matching [str "Text line\n", str "## 🌟 AI Tools\n"]
    (str "AI Tools") 1 (by decide)).2.2.1

theorem parseHeaderLine?_entry_title (X : Str) :
    parseHeaderLine? (str "**标题:** " ++ X) = none := by
  have e : str "**标题:** " ++ X = '*' :: (str "*标题:** " ++ X) := rfl
  rw [e]
  exact parseHeaderLine?_cons_none (by decide) (by decide) _

theorem parseHeaderLine?_entry_link (X : Str) :
    parseHeaderLine? (str "**链接:** " ++ X) = none := by
  have e : str "**链接:** " ++ X = '*' :: (str "*链接:** " ++ X) := rfl
  rw [e]
  exact parseHeaderLine?_cons_none (by decide) (by decide) _

theorem parseHeaderLine?_entry_summary (X : Str) :
    parseHeaderLine? (str "**摘要:** " ++ X) = none := by
  have e : str "**摘要:** " ++ X = '*' :: (str "*摘要:** " ++ X) := rfl
  rw [e]
  exact parseHeaderLine?_cons_none (by decide) (by decide) _

/-- The lines of the rendered entry block followed by a newline and any rest:
three labelled field lines separated by blank lines, provided the fields
contain no newline of their own. -/
theorem splitKeepNl_article_chunk (t u s R : Str)
    (ht : ∀ ch ∈ t, ch ≠ '\n') (hu : ∀ ch ∈ u, ch ≠ '\n') (hs : ∀ ch ∈ s, ch ≠ '\n') :
    splitKeepNl (articleText t u s ++ '\n' :: R)
      = (str "**标题:** " ++ (t ++ ['\n'])) :: ['\n'] :: (str "**链接:** " ++ (u ++ ['\n']))
        :: ['\n'] :: (str "**摘要:** " ++ (s ++ ['\n'])) :: splitKeepNl R := by
  have d1 : str "\n\n**链接:** " = '\n' :: '\n' :: str "**链接:** " := by decide
  have d2 : str "\n\n**摘要:** " = '\n' :: '\n' :: str "**摘要:** " := by decide
  have e1 : articleText t u s ++ '\n' :: R
      = (str "**标题:** " ++ t) ++ '\n' :: ('\n' :: ((str "**链接:** " ++ u)
          ++ '\n' :: ('\n' :: ((str "**摘要:** " ++ s) ++ '\n' :: R)))) := by
    simp [articleText, d1, d2, List.append_assoc]
  have h1 : ∀ ch ∈ (str "**标题:** " ++ t), ch ≠ '\n' := by
    intro ch hch
    rcases List.mem_append.mp hch with hm | hm
    · exact (by decide : ∀ x ∈ str "**标题:** ", x ≠ '\n') ch hm
    · exact ht ch hm
  have h2 : ∀ ch ∈ (str "**链接:** " ++ u), ch ≠ '\n' := by
    intro ch hch
    rcases List.mem_append.mp hch with hm | hm
    · exact (by decide : ∀ x ∈ str "**链接:** ", x ≠ '\n') ch hm
    · exact hu ch hm
  have h3 : ∀ ch ∈ (str "**摘要:** " ++ s), ch ≠ '\n' := by
    intro ch hch
    rcases List.mem_append.mp hch with hm | hm
    · exact (by decide : ∀ x ∈ str "**摘要:** ", x ≠ '\n') ch hm
    · exact hs ch hm
  rw [e1, splitKeepNl_chunk h1, splitKeepNl_cons_nl, splitKeepNl_chunk h2,
    splitKeepNl_cons_nl, splitKeepNl_chunk h3]
  simp [List.append_assoc]

theorem take_proper (c : Str) {f : Nat} (hf : f < (splitKeepNl c).length) :
    ∀ x ∈ (splitKeepNl c).take f,
      (x ≠ [] ∧ ∀ ch ∈ x.dropLast, ch ≠ '\n') ∧ x.getLast? = some '\n' := by
  intro x hx
  have hxL : x ∈ splitKeepNl c := List.take_subset f _ hx
  have hxdl : x ∈ (splitKeepNl c).dropLast := by
    have heq : (splitKeepNl c).take f = ((splitKeepNl c).dropLast).take f := by
      rw [List.dropLast_eq_take, List.take_take]
      congr 1
      omega
    rw [heq] at hx
    exact List.take_subset f _ hx
  exact ⟨splitKeepNl_good c x hxL, splitKeepNl_terminated c x hxdl⟩

theorem drop_proper_good (c : Str) (f : Nat) :
    ∀ x ∈ (splitKeepNl c).drop f, x ≠ [] ∧ ∀ ch ∈ x.dropLast, ch ≠ '\n' := by
  intro x hx
  exact splitKeepNl_good c x (List.drop_subset f _ hx)

theorem drop_proper_term (c : Str) (f : Nat) :
    ∀ x ∈ ((splitKeepNl c).drop f).dropLast, x.getLast? = some '\n' := by
  intro x hx
  rw [dropLast_drop_comm] at hx
  exact splitKeepNl_terminated c x (List.drop_subset f _ hx)

theorem findCategoryIndex_of_mem {c cat : Str} (hcat : cat ∈ parseCategories c) :
    ∃ h, findCategoryIndex (splitKeepNl c) cat = some h := by
  unfold parseCategories at hcat
  rw [List.mem_filterMap] at hcat
  obtain ⟨line, hline, hname⟩ := hcat
  cases hf : findCategoryIndex (splitKeepNl c) cat with
  | some h => exact ⟨h, rfl⟩
  | none =>
    exfalso
    have hfalse := findIdxFrom_eq_none hf line hline
    have he : insertHeaderLine? line = parseHeaderLine? line := rfl
    rw [he, hname] at hfalse
    simp at hfalse

/-- C9 counterexample: inserting an entry whose summary itself contains a
newline followed by a heading marker (`"s\n## Hack"`) into the existing
category `Tech` makes the re-split document contain a new heading line, so
reparsing yields `[Tech, Hack]` instead of the original `[Tech]`. -/
theorem C9_counterexample_newline_injection :
    parseCategories (str "## 🌟 Tech\n\n**标题:** E\n") = [str "Tech"]
    ∧ parseCategories (insertContent (some (str "## 🌟 Tech\n\n**标题:** E\n"))
        (str "Tech") (str "T2") (str "u2") (str "s\n## Hack") (str "🧩"))
      = [str "Tech", str "Hack"] := by
  constructor <;> decide

/-- C9 as amended: for every document and every category already present in
its parsed category list, inserting one entry whose title, url and summary
contain no newline character (the data model's three-line entry shape) and
reparsing the rewritten content yields exactly the same ordered category
list. -/
theorem C9_reparse_preserves_categories
    (c cat t u s e : Str)
    (hcat : cat ∈ parseCategories c)
    (ht : ∀ ch ∈ t, ch ≠ '\n') (hu : ∀ ch ∈ u, ch ≠ '\n') (hs : ∀ ch ∈ s, ch ≠ '\n') :
    parseCategories (insertContent (some c) cat t u s e) = parseCategories c := by
  obtain ⟨h, hfind⟩ := findCategoryIndex_of_mem hcat
  have hLne : splitKeepNl c ≠ [] := by
    obtain ⟨h1, -, -⟩ := findIdxFrom_some hfind
    intro hnil
    rw [hnil] at h1
    simp at h1
  have hnl : parseHeaderLine? ['\n'] = none := by decide
  have hdash : parseHeaderLine? (str "---" ++ ['\n']) = none := by decide
  show parseCategories ((insertLines (splitKeepNl c) cat t u s e).flatten) = _
  cases hart : findFirstArticle (splitKeepNl c) h with
  | some f =>
    obtain ⟨-, hfl, -, -⟩ := findFirstArticle_spec hart
    rw [insertLines_found_entry hfind hart t u s e]
    unfold insertAt
    rw [List.flatten_append, List.flatten_cons]
    have d3 : str "\n\n---\n\n" = '\n' :: ('\n' :: (str "---" ++ '\n' :: ('\n' :: []))) := by
      decide
    have ea : (articleText t u s ++ str "\n\n---\n\n") ++ ((splitKeepNl c).drop f).flatten
        = articleText t u s
            ++ '\n' :: ('\n' :: (str "---"
                ++ '\n' :: ('\n' :: ((splitKeepNl c).drop f).flatten))) := by
      rw [d3]
      simp [List.append_assoc]
    unfold parseCategories
    rw [ea, splitKeepNl_flatten_append (take_proper c hfl),
      splitKeepNl_article_chunk t u s _ ht hu hs, splitKeepNl_cons_nl,
      splitKeepNl_chunk (by decide : ∀ ch ∈ str "---", ch ≠ '\n'), splitKeepNl_cons_nl,
      splitKeepNl_flatten (drop_proper_good c f) (drop_proper_term c f)]
    rw [List.filterMap_append]
    simp only [List.filterMap_cons, parseHeaderLine?_entry_title,
      parseHeaderLine?_entry_link, parseHeaderLine?_entry_summary, hnl, hdash]
    rw [← List.filterMap_append, List.take_append_drop]
  | none =>
    obtain ⟨hle, -, -⟩ := endOfSection_spec (splitKeepNl c) h
    rw [insertLines_found_empty hfind hart t u s e]
    unfold insertAt
    rw [List.flatten_append, List.flatten_cons]
    rcases Nat.lt_or_ge (endOfSection (splitKeepNl c) h) (splitKeepNl c).length with hlt | hge
    · have ea : ('\n' :: (articleText t u s ++ ['\n']))
          ++ ((splitKeepNl c).drop (endOfSection (splitKeepNl c) h)).flatten
          = '\n' :: (articleText t u s
              ++ '\n' :: ((splitKeepNl c).drop (endOfSection (splitKeepNl c) h)).flatten) := by
        simp [List.append_assoc]
      unfold parseCategories
      rw [ea, splitKeepNl_flatten_append (take_proper c hlt), splitKeepNl_cons_nl,
        splitKeepNl_article_chunk t u s _ ht hu hs,
        splitKeepNl_flatten (drop_proper_good c _) (drop_proper_term c _)]
      rw [List.filterMap_append]
      simp only [List.filterMap_cons, parseHeaderLine?_entry_title,
        parseHeaderLine?_entry_link, parseHeaderLine?_entry_summary, hnl]
      rw [← List.filterMap_append, List.take_append_drop]
    · have he : endOfSection (splitKeepNl c) h = (splitKeepNl c).length := by omega
      rw [he, List.take_length, List.drop_length]
      simp only [List.flatten_nil, List.append_nil]
      obtain ⟨x, hx⟩ : ∃ x, (splitKeepNl c).getLast? = some x := by
        cases hgl : (splitKeepNl c).getLast? with
        | none => rw [List.getLast?_eq_none_iff] at hgl; exact absurd hgl hLne
        | some x => exact ⟨x, rfl⟩
      have hdecomp : (splitKeepNl c).dropLast ++ [x] = splitKeepNl c :=
        List.dropLast_append_getLast? x hx
      obtain ⟨hxne, hxgood⟩ : x ≠ [] ∧ ∀ ch ∈ x.dropLast, ch ≠ '\n' := by
        apply splitKeepNl_good
        rw [← hdecomp]
        simp
      have hflat : (splitKeepNl c).flatten = ((splitKeepNl c).dropLast).flatten ++ x := by
        conv_lhs => rw [← hdecomp]
        rw [List.flatten_append]
        simp
      have hdlprop : ∀ y ∈ (splitKeepNl c).dropLast,
          (y ≠ [] ∧ ∀ c2 ∈ y.dropLast, c2 ≠ '\n') ∧ y.getLast? = some '\n' :=
        fun y hy => ⟨splitKeepNl_good c y (List.dropLast_subset _ hy),
          splitKeepNl_terminated c y hy⟩
      unfold parseCategories
      rw [hflat, List.append_assoc, splitKeepNl_flatten_append hdlprop]
      have hRHS : (splitKeepNl c).filterMap parseHeaderLine?
          = ((splitKeepNl c).dropLast).filterMap parseHeaderLine?
              ++ [x].filterMap parseHeaderLine? := by
        rw [← List.filterMap_append, hdecomp]
      rw [hRHS, List.filterMap_append]
      congr 1
      cases hxl : x.getLast? with
      | none => rw [List.getLast?_eq_none_iff] at hxl; exact absurd hxl hxne
      | some ch =>
        by_cases hch : ch = '\n'
        · subst hch
          have hxprop : ∀ y ∈ [x],
              (y ≠ [] ∧ ∀ c2 ∈ y.dropLast, c2 ≠ '\n') ∧ y.getLast? = some '\n' := by
            intro y hy
            rw [List.mem_singleton] at hy
            subst hy
            exact ⟨⟨hxne, hxgood⟩, hxl⟩
          have e2 : x ++ ('\n' :: (articleText t u s ++ ['\n']))
              = [x].flatten ++ ('\n' :: (articleText t u s ++ ['\n'])) := by simp
          have e3 : articleText t u s ++ ['\n'] = articleText t u s ++ '\n' :: [] := rfl
          rw [e2, splitKeepNl_flatten_append hxprop, splitKeepNl_cons_nl, e3,
            splitKeepNl_article_chunk t u s [] ht hu hs, List.singleton_append]
          have hsnil : splitKeepNl ([] : Str) = [] := rfl
          simp only [List.filterMap_cons, parseHeaderLine?_entry_title,
            parseHeaderLine?_entry_link, parseHeaderLine?_entry_summary, hnl,
            hsnil, List.filterMap_nil]
        · have hxnoNl : ∀ ch2 ∈ x, ch2 ≠ '\n' := by
            intro ch2 hch2
            have hde : x.dropLast ++ [ch] = x := List.dropLast_append_getLast? ch hxl
            rw [← hde] at hch2
            rcases List.mem_append.mp hch2 with hm | hm
            · exact hxgood ch2 hm
            · rw [List.mem_singleton] at hm
              subst hm
              exact hch
          have e2 : x ++ ('\n' :: (articleText t u s ++ ['\n']))
              = x ++ '\n' :: (articleText t u s ++ ['\n']) := rfl
          have e3 : articleText t u s ++ ['\n'] = articleText t u s ++ '\n' :: [] := rfl
          rw [e2, splitKeepNl_chunk hxnoNl, e3,
            splitKeepNl_article_chunk t u s [] ht hu hs]
          have hsnil : splitKeepNl ([] : Str) = [] := rfl
          simp only [List.filterMap_cons, parseHeaderLine?_entry_title,
            parseHeaderLine?_entry_link, parseHeaderLine?_entry_summary, hnl,
            hsnil, List.filterMap_nil, parseHeaderLine?_append_nl]

/-- Witness for the amended C9: a two-category document, insertion into
`Tech`; reparsing the rewritten content still yields `[Tech, Dev]`. -/
theorem C9_witness :
    parseCategories (insertContent (some (str "## 🌟 Tech\n\n**标题:** E\n\n### Dev\n"))
        (str "Tech") (str "T2") (str "u2") (str "s2") (str "🧩"))
      = parseCategories (str "## 🌟 Tech\n\n**标题:** E\n\n### Dev\n") :=
  C9_reparse_preserves_categories (str "## 🌟 Tech\n\n**标题:** E\n\n### Dev\n")
    (str "Tech") (str "T2") (str "u2") (str "s2") (str "🧩")
    (by decide) (by decide) (by decide) (by decide)
